import Mathlib

/- Verification of the `order-book` repository (src/types.rs, src/order_book.rs,
   src/market_depth_cache.rs) against its specification.

   Modelling conventions, chosen to mirror the source:

   * `rust_decimal::Decimal` is an exact base-10 fixed-point value; every
     operation this code performs on it (`Ord`/`Eq` comparison as `BTreeMap`
     key, `trunc`) acts on its numeric value, so a `Decimal` is modelled as a
     rational number.  `Decimal::trunc` truncates toward zero, i.e. it is
     truncating integer division of numerator by denominator.
   * `std::collections::BTreeMap` is modelled as an association list whose
     keys are strictly increasing; `entry(k).or_insert(d)` followed by an
     in-place modification is `mapUpdate`, `get` is `mapGet`, `keys().next()`
     is the head key, `keys().next_back()` is the last key, `len` is the list
     length.
   * The `u64` depth totals of the cache are accumulated by the source with
     native unchecked `+=`; this is modelled as addition reduced modulo
     `2 ^ 64` (release-profile wrap-around semantics).
   * `parking_lot::RwLock` only serialises access; the sequential semantics
     of each operation is the lock-free function modelled here.
   * `f64` inputs to `Order::new` are modelled by `F64`: NaN, the two
     infinities, or a finite value (every finite double is an exact rational).
     `Decimal::try_from` fails (returns `None`) on NaN, infinities and values
     whose magnitude exceeds the decimal range; `.unwrap()` on that `None` is
     a panic, i.e. a process abort, modelled by `OrderNewResult.processAbort`.
-/

set_option maxHeartbeats 1000000
set_option maxRecDepth 8000

/-- Model of `rust_decimal::Decimal` values: exact decimal numbers, compared
numerically, embedded in the rationals. -/
abbrev Decimal := ℚ

/-- src/types.rs: side of an order (`Bid` = buy, `Ask` = sell). -/
inductive Side where
  | Bid : Side
  | Ask : Side
deriving DecidableEq

/-- src/types.rs `Order`: price, quantity (`u64`, modelled as ℕ), side. -/
structure Order where
  price : Decimal
  quantity : ℕ
  side : Side
deriving DecidableEq

/-- src/types.rs `OrderEvent`: the exact price where a change occurred, the
(positive) change in quantity, and the side affected. -/
structure OrderEvent where
  price : Decimal
  quantity_delta : ℕ
  side : Side
deriving DecidableEq

/-- src/types.rs `PriceLevelMap = BTreeMap<Decimal, Vec<Order>>`, modelled as
an association list with strictly increasing keys. -/
abbrev PriceLevelMap := List (Decimal × List Order)

/-- src/types.rs `AggregatedDepthMap = BTreeMap<Decimal, u64>`, modelled as an
association list with strictly increasing keys. -/
abbrev AggregatedDepthMap := List (Decimal × ℕ)

/-- Model of `BTreeMap::get`: the value stored at key `q`, if any. -/
def mapGet {α : Type} : List (Decimal × α) → Decimal → Option α
  | [], _ => none
  | (k, v) :: rest, q => if q = k then some v else mapGet rest q

/-- Model of `BTreeMap::entry(k).or_insert(dflt)` followed by an in-place modification
`f` of the entry's value, on the sorted-association-list model: inserts
`(k, f dflt)` at its sorted position if `k` is absent, otherwise replaces the
stored `v` by `f v`. -/
def mapUpdate {α : Type} (k : Decimal) (dflt : α) (f : α → α) :
    List (Decimal × α) → List (Decimal × α)
  | [] => [(k, f dflt)]
  | (k', v) :: rest =>
    if k < k' then (k, f dflt) :: (k', v) :: rest
    else if k = k' then (k', f v) :: rest
    else (k', v) :: mapUpdate k dflt f rest

/-- The `BTreeMap` representation invariant of the model: keys strictly
increase along the list. -/
def keysSorted {α : Type} (m : List (Decimal × α)) : Prop :=
  List.Pairwise (fun e₁ e₂ => e₁.1 < e₂.1) m

instance {α : Type} (m : List (Decimal × α)) : Decidable (keysSorted m) :=
  inferInstanceAs (Decidable (List.Pairwise _ m))

/-- src/order_book.rs `OrderBook`: ask side and bid side price-level maps. -/
structure OrderBook where
  asks : PriceLevelMap
  bids : PriceLevelMap
deriving DecidableEq

namespace OrderBook

/-- src/order_book.rs `OrderBook::new`: both sides empty. -/
def new : OrderBook :=
  { asks := [], bids := [] }

/-- src/order_book.rs `OrderBook::aggregate_price_to_level`:
`price.trunc()`, the integer part of the price obtained by truncation toward
zero — numerator divided by denominator with `Int.tdiv` (truncating
division). -/
def aggregate_price_to_level (price : Decimal) : Decimal :=
  ((price.num.tdiv (price.den : ℤ) : ℤ) : ℚ)

/-- src/order_book.rs `OrderBook::insert_order`: push the order onto the
vector stored under its exact price on its side (creating the entry with an
empty vector first if absent), and return the `OrderEvent` built from the
order's price, quantity and side.  Returns the updated book (the Rust method
mutates `self`) together with the event. -/
def insert_order (book : OrderBook) (order : Order) : OrderBook × OrderEvent :=
  match order.side with
  | Side.Bid =>
    ({ book with
        bids := mapUpdate order.price [] (fun orders => orders ++ [order]) book.bids },
      { price := order.price, quantity_delta := order.quantity, side := order.side })
  | Side.Ask =>
    ({ book with
        asks := mapUpdate order.price [] (fun orders => orders ++ [order]) book.asks },
      { price := order.price, quantity_delta := order.quantity, side := order.side })

/-- src/order_book.rs `OrderBook::compute_spread`: best bid is the last
(highest) bid key, best ask is the first (lowest) ask key. -/
def compute_spread (book : OrderBook) : Option Decimal × Option Decimal :=
  (book.bids.getLast?.map Prod.fst, book.asks.head?.map Prod.fst)

/-- src/order_book.rs `OrderBook::bid_levels_count`: number of distinct bid
price levels. -/
def bid_levels_count (book : OrderBook) : ℕ :=
  book.bids.length

/-- src/order_book.rs `OrderBook::ask_levels_count`: number of distinct ask
price levels. -/
def ask_levels_count (book : OrderBook) : ℕ :=
  book.asks.length

/-- The side-selection `match` of src/order_book.rs (`Side::Bid => &self.bids,
Side::Ask => &self.asks`). -/
def side_map (book : OrderBook) : Side → PriceLevelMap
  | Side.Bid => book.bids
  | Side.Ask => book.asks

/-- src/order_book.rs `OrderBook::orders_at_price_level`: length of the
vector stored at the exact price on the given side, `0` if absent. -/
def orders_at_price_level (book : OrderBook) (price : Decimal) (side : Side) : ℕ :=
  ((mapGet (book.side_map side) price).map List.length).getD 0

/-- Representation invariant: both `BTreeMap`s have strictly increasing
keys.  Holds for every book reachable from `OrderBook::new`. -/
def Wf (book : OrderBook) : Prop :=
  keysSorted book.asks ∧ keysSorted book.bids

instance (book : OrderBook) : Decidable book.Wf :=
  inferInstanceAs (Decidable (_ ∧ _))

/-- Fold of `insert_order` over a list of orders, discarding the events. -/
def insert_all (book : OrderBook) (orders : List Order) : OrderBook :=
  orders.foldl (fun b o => (b.insert_order o).1) book

/-- Fold of `insert_order` over a list of orders, collecting the returned
events in order. -/
def run_events (book : OrderBook) : List Order → OrderBook × List OrderEvent
  | [] => (book, [])
  | o :: rest =>
    let step := book.insert_order o
    let next := run_events step.1 rest
    (next.1, step.2 :: next.2)

end OrderBook

/-- The modulus of `u64` arithmetic, `2 ^ 64`. -/
def U64_MOD : ℕ := 2 ^ 64

/-- src/market_depth_cache.rs `MarketDepthCache`: aggregated bid and ask
depth maps (the `RwLock`s only serialise access and are not part of the
sequential semantics). -/
structure MarketDepthCache where
  aggregated_bid_depth : AggregatedDepthMap
  aggregated_ask_depth : AggregatedDepthMap
deriving DecidableEq

namespace MarketDepthCache

/-- src/market_depth_cache.rs `MarketDepthCache::new`: both depth maps
empty. -/
def new : MarketDepthCache :=
  { aggregated_bid_depth := [], aggregated_ask_depth := [] }

/-- src/market_depth_cache.rs `MarketDepthCache::process_order_event`:
aggregate the event's price to its level with the book's rule, then add
`quantity_delta` to the entry at that level on the event's side (creating it
as `0` first if absent).  The `u64` `+=` is unchecked native addition,
modelled as wrap-around modulo `2 ^ 64`. -/
def process_order_event (cache : MarketDepthCache) (event : OrderEvent) : MarketDepthCache :=
  let aggregated_price_level := OrderBook.aggregate_price_to_level event.price
  match event.side with
  | Side.Bid =>
    { cache with
        aggregated_bid_depth :=
          mapUpdate aggregated_price_level 0
            (fun q => (q + event.quantity_delta) % U64_MOD) cache.aggregated_bid_depth }
  | Side.Ask =>
    { cache with
        aggregated_ask_depth :=
          mapUpdate aggregated_price_level 0
            (fun q => (q + event.quantity_delta) % U64_MOD) cache.aggregated_ask_depth }

/-- src/market_depth_cache.rs `MarketDepthCache::get_aggregated_market_depth`:
a snapshot (clone) of both depth maps. -/
def get_aggregated_market_depth (cache : MarketDepthCache) :
    AggregatedDepthMap × AggregatedDepthMap :=
  (cache.aggregated_bid_depth, cache.aggregated_ask_depth)

/-- The side-selection `match` of src/market_depth_cache.rs. -/
def side_depth (cache : MarketDepthCache) : Side → AggregatedDepthMap
  | Side.Bid => cache.aggregated_bid_depth
  | Side.Ask => cache.aggregated_ask_depth

/-- src/market_depth_cache.rs `MarketDepthCache::get_quantity_at_level`: the
stored total at the aggregated level on the given side, `0` if absent. -/
def get_quantity_at_level (cache : MarketDepthCache) (aggregated_level : Decimal)
    (side : Side) : ℕ :=
  (mapGet (cache.side_depth side) aggregated_level).getD 0

/-- src/market_depth_cache.rs `MarketDepthCache::bid_levels_count`. -/
def bid_levels_count (cache : MarketDepthCache) : ℕ :=
  cache.aggregated_bid_depth.length

/-- src/market_depth_cache.rs `MarketDepthCache::ask_levels_count`. -/
def ask_levels_count (cache : MarketDepthCache) : ℕ :=
  cache.aggregated_ask_depth.length

/-- src/market_depth_cache.rs `MarketDepthCache::clear`: empties both depth
maps. -/
def clear (_cache : MarketDepthCache) : MarketDepthCache :=
  new

/-- Fold of `process_order_event` over a list of events. -/
def process_all (cache : MarketDepthCache) (events : List OrderEvent) : MarketDepthCache :=
  events.foldl process_order_event cache

/-- Representation invariant: both depth maps have strictly increasing keys
and every stored total is a valid `u64` (below `2 ^ 64`).  Holds for every
cache reachable from `MarketDepthCache::new`. -/
def Wf (cache : MarketDepthCache) : Prop :=
  keysSorted cache.aggregated_bid_depth ∧ keysSorted cache.aggregated_ask_depth ∧
    (∀ kv ∈ cache.aggregated_bid_depth, kv.2 < U64_MOD) ∧
    (∀ kv ∈ cache.aggregated_ask_depth, kv.2 < U64_MOD)

instance (cache : MarketDepthCache) : Decidable cache.Wf :=
  inferInstanceAs (Decidable (_ ∧ _))

end MarketDepthCache

/-- Model of an `f64` argument: NaN, an infinity, or a finite double (every
finite double is an exact rational number). -/
inductive F64 where
  | nan : F64
  | posInf : F64
  | negInf : F64
  | finite (value : ℚ) : F64
deriving DecidableEq

/-- Value of `Decimal::MAX` as a rational: `2 ^ 96 - 1` (96-bit mantissa, scale 0). -/
def DECIMAL_MAX : ℚ := ((2 ^ 96 - 1 : ℕ) : ℚ)

/-- The decimal value produced by the `rust_decimal` `f64` conversion for an
in-range finite input (nearest representable decimal; modelled as rounding at
the maximal scale 28 — no theorem below depends on the rounded value, only on
the failure cases of the conversion). -/
def decimal_round (v : ℚ) : Decimal :=
  mkRat (round (v * (10 : ℚ) ^ 28)) (10 ^ 28)

/-- Model of `Decimal::try_from(value: f64)` (`Decimal::from_f64`): fails with
`None` exactly on inputs with no decimal representation — NaN, the
infinities, and finite values whose magnitude exceeds the decimal range. -/
def decimal_try_from : F64 → Option Decimal
  | F64.nan => none
  | F64.posInf => none
  | F64.negInf => none
  | F64.finite v => if |v| ≤ DECIMAL_MAX then some (decimal_round v) else none

/-- Outcome of `Order::new`: the Rust signature returns a bare `Self`, so the
only possible outcomes are a constructed order or a panic (process abort)
raised by `.unwrap()`. -/
inductive OrderNewResult where
  | ok (order : Order) : OrderNewResult
  | processAbort : OrderNewResult
deriving DecidableEq

/-- src/types.rs `Order::new`:
`Decimal::try_from(price).unwrap()` — when the conversion fails, `.unwrap()`
panics, aborting the process; no error value is ever returned. -/
def Order.new (price : F64) (quantity : ℕ) (side : Side) : OrderNewResult :=
  match decimal_try_from price with
  | some decimal_price =>
    OrderNewResult.ok { price := decimal_price, quantity := quantity, side := side }
  | none => OrderNewResult.processAbort

/-- The event that `insert_order` builds for an order (same price, quantity
and side). -/
def order_event_of (order : Order) : OrderEvent :=
  { price := order.price, quantity_delta := order.quantity, side := order.side }

/-- The events returned by inserting a list of orders into the empty book, in
insertion order. -/
def book_events (orders : List Order) : List OrderEvent :=
  (OrderBook.run_events OrderBook.new orders).2

/-- Exact prices of the bid orders of a list, in order. -/
def bid_prices (orders : List Order) : List Decimal :=
  (orders.filter fun o => decide (o.side = Side.Bid)).map Order.price

/-- Exact prices of the ask orders of a list, in order. -/
def ask_prices (orders : List Order) : List Decimal :=
  (orders.filter fun o => decide (o.side = Side.Ask)).map Order.price

/-- Whether an event lies on the given side and its exact price aggregates to
the given level. -/
def event_matches (level : Decimal) (side : Side) (e : OrderEvent) : Bool :=
  decide (e.side = side) && decide (OrderBook.aggregate_price_to_level e.price = level)

/-- Whether an order lies on the given side and its exact price aggregates to
the given level. -/
def order_matches (level : Decimal) (side : Side) (o : Order) : Bool :=
  decide (o.side = side) && decide (OrderBook.aggregate_price_to_level o.price = level)

/-- Sum of `quantity_delta` over the events of a list on the given side whose
price aggregates to the given level. -/
def sum_deltas (events : List OrderEvent) (level : Decimal) (side : Side) : ℕ :=
  ((events.filter (event_matches level side)).map OrderEvent.quantity_delta).sum

/-- Sum of quantities over the orders of a list on the given side whose price
truncates to the given level. -/
def sum_quantities (orders : List Order) (level : Decimal) (side : Side) : ℕ :=
  ((orders.filter (order_matches level side)).map Order.quantity).sum

/-- The opposite side. -/
def Side.opposite : Side → Side
  | Side.Bid => Side.Ask
  | Side.Ask => Side.Bid

/-- Minimum of two optional prices (`none` is the identity). -/
def omin : Option Decimal → Option Decimal → Option Decimal
  | none, y => y
  | some x, none => some x
  | some x, some y => some (min x y)

/-- Maximum of two optional prices (`none` is the identity). -/
def omax : Option Decimal → Option Decimal → Option Decimal
  | none, y => y
  | some x, none => some x
  | some x, some y => some (max x y)

/-- The sequence of resting orders stored at an exact price on a side (the
`Vec<Order>` of the bucket), empty if the bucket is absent. -/
def orders_list_at (book : OrderBook) (price : Decimal) (side : Side) : List Order :=
  (mapGet (book.side_map side) price).getD []

/-! Generic lemmas about the sorted-association-list model of `BTreeMap`. -/

theorem mapGet_eq_none_of_forall_ne {α : Type} {m : List (Decimal × α)} {q : Decimal}
    (h : ∀ kv ∈ m, q ≠ kv.1) : mapGet m q = none := by
  induction m with
  | nil => rfl
  | cons kv rest ih =>
    obtain ⟨k, v⟩ := kv
    have hq : q ≠ k := h (k, v) (List.mem_cons_self _ _)
    simp only [mapGet, if_neg hq]
    exact ih fun kv hkv => h kv (List.mem_cons_of_mem _ hkv)

theorem mapGet_mem {α : Type} {m : List (Decimal × α)} {q : Decimal} {v : α}
    (h : mapGet m q = some v) : (q, v) ∈ m := by
  induction m with
  | nil => simp [mapGet] at h
  | cons kv rest ih =>
    obtain ⟨k, w⟩ := kv
    simp only [mapGet] at h
    split at h
    · next heq =>
      obtain rfl := Option.some.inj h
      subst heq
      exact List.mem_cons_self _ _
    · exact List.mem_cons_of_mem _ (ih h)

theorem mapUpdate_forall_fst {α : Type} {k : Decimal} {d : α} {f : α → α}
    {Q : Decimal → Prop} :
    ∀ {m : List (Decimal × α)}, (∀ kv ∈ m, Q kv.1) → Q k →
      ∀ kv ∈ mapUpdate k d f m, Q kv.1
  | [], _, hk => by
    intro kv hkv
    simp only [mapUpdate, List.mem_singleton] at hkv
    subst hkv
    exact hk
  | (k', v) :: rest, hm, hk => by
    intro kv hkv
    simp only [mapUpdate] at hkv
    by_cases h1 : k < k'
    · rw [if_pos h1] at hkv
      rcases List.mem_cons.1 hkv with h | h
      · subst h; exact hk
      · exact hm kv h
    · rw [if_neg h1] at hkv
      by_cases h2 : k = k'
      · rw [if_pos h2] at hkv
        rcases List.mem_cons.1 hkv with h | h
        · subst h; exact hm (k', v) (List.mem_cons_self _ _)
        · exact hm kv (List.mem_cons_of_mem _ h)
      · rw [if_neg h2] at hkv
        rcases List.mem_cons.1 hkv with h | h
        · subst h; exact hm (k', v) (List.mem_cons_self _ _)
        · exact mapUpdate_forall_fst (fun kv hkv => hm kv (List.mem_cons_of_mem _ hkv)) hk kv h

theorem mapUpdate_forall_snd {α : Type} {k : Decimal} {d : α} {f : α → α}
    {P : α → Prop} :
    ∀ {m : List (Decimal × α)}, (∀ kv ∈ m, P kv.2) → P (f d) →
      (∀ v, P v → P (f v)) → ∀ kv ∈ mapUpdate k d f m, P kv.2
  | [], _, hd, _ => by
    intro kv hkv
    simp only [mapUpdate, List.mem_singleton] at hkv
    subst hkv
    exact hd
  | (k', v) :: rest, hm, hd, hf => by
    intro kv hkv
    simp only [mapUpdate] at hkv
    by_cases h1 : k < k'
    · rw [if_pos h1] at hkv
      rcases List.mem_cons.1 hkv with h | h
      · subst h; exact hd
      · exact hm kv h
    · rw [if_neg h1] at hkv
      by_cases h2 : k = k'
      · rw [if_pos h2] at hkv
        rcases List.mem_cons.1 hkv with h | h
        · subst h; exact hf v (hm (k', v) (List.mem_cons_self _ _))
        · exact hm kv (List.mem_cons_of_mem _ h)
      · rw [if_neg h2] at hkv
        rcases List.mem_cons.1 hkv with h | h
        · subst h; exact hm (k', v) (List.mem_cons_self _ _)
        · exact mapUpdate_forall_snd (fun kv hkv => hm kv (List.mem_cons_of_mem _ hkv)) hd hf kv h

theorem keysSorted_mapUpdate {α : Type} {k : Decimal} {d : α} {f : α → α} :
    ∀ {m : List (Decimal × α)}, keysSorted m → keysSorted (mapUpdate k d f m)
  | [], _ => by
    simp [mapUpdate, keysSorted]
  | (k', v) :: rest, hm => by
    have hrest : keysSorted rest := (List.pairwise_cons.1 hm).2
    have hhead : ∀ kv ∈ rest, k' < kv.1 := (List.pairwise_cons.1 hm).1
    simp only [mapUpdate]
    by_cases h1 : k < k'
    · rw [if_pos h1]
      exact List.pairwise_cons.2 ⟨by
        intro kv hkv
        rcases List.mem_cons.1 hkv with h | h
        · subst h; exact h1
        · exact lt_trans h1 (hhead kv h), hm⟩
    · rw [if_neg h1]
      by_cases h2 : k = k'
      · rw [if_pos h2]
        exact List.pairwise_cons.2 ⟨hhead, hrest⟩
      · rw [if_neg h2]
        have hk' : k' < k := by
          rcases lt_trichotomy k k' with h | h | h
          · exact absurd h h1
          · exact absurd h h2
          · exact h
        exact List.pairwise_cons.2 ⟨mapUpdate_forall_fst hhead hk',
          keysSorted_mapUpdate hrest⟩

theorem mapGet_mapUpdate_self {α : Type} {k : Decimal} {d : α} {f : α → α} :
    ∀ {m : List (Decimal × α)}, keysSorted m →
      mapGet (mapUpdate k d f m) k = some (f ((mapGet m k).getD d))
  | [], _ => by simp [mapUpdate, mapGet]
  | (k', v) :: rest, hm => by
    have hrest : keysSorted rest := (List.pairwise_cons.1 hm).2
    have hhead : ∀ kv ∈ rest, k' < kv.1 := (List.pairwise_cons.1 hm).1
    simp only [mapUpdate]
    by_cases h1 : k < k'
    · rw [if_pos h1]
      have hne : k ≠ k' := ne_of_lt h1
      have hnone : mapGet rest k = none :=
        mapGet_eq_none_of_forall_ne fun kv hkv => ne_of_lt (lt_trans h1 (hhead kv hkv))
      simp [mapGet, hne, hnone]
    · rw [if_neg h1]
      by_cases h2 : k = k'
      · rw [if_pos h2]
        subst h2
        simp [mapGet]
      · rw [if_neg h2]
        simp only [mapGet, if_neg h2]
        exact mapGet_mapUpdate_self hrest

theorem mapGet_mapUpdate_ne {α : Type} {k q : Decimal} {d : α} {f : α → α}
    (hne : q ≠ k) :
    ∀ {m : List (Decimal × α)}, mapGet (mapUpdate k d f m) q = mapGet m q
  | [] => by simp [mapUpdate, mapGet, hne]
  | (k', v) :: rest => by
    simp only [mapUpdate]
    by_cases h1 : k < k'
    · rw [if_pos h1]
      simp only [mapGet, if_neg hne]
    · rw [if_neg h1]
      by_cases h2 : k = k'
      · rw [if_pos h2]
        subst h2
        simp only [mapGet, if_neg hne]
      · rw [if_neg h2]
        by_cases h3 : q = k'
        · simp only [mapGet, if_pos h3]
        · simp only [mapGet, if_neg h3]
          exact mapGet_mapUpdate_ne hne

theorem length_le_mapUpdate {α : Type} {k : Decimal} {d : α} {f : α → α} :
    ∀ {m : List (Decimal × α)}, m.length ≤ (mapUpdate k d f m).length
  | [] => by simp [mapUpdate]
  | (k', v) :: rest => by
    simp only [mapUpdate]
    by_cases h1 : k < k'
    · rw [if_pos h1]; simp
    · rw [if_neg h1]
      by_cases h2 : k = k'
      · rw [if_pos h2]; simp
      · rw [if_neg h2]
        simpa using Nat.succ_le_succ length_le_mapUpdate

/-! Lemmas about `omin`/`omax` and boundary keys of the sorted maps. -/

theorem omin_comm (x y : Option Decimal) : omin x y = omin y x := by
  cases x <;> cases y <;> simp [omin, min_comm]

theorem omin_assoc (x y z : Option Decimal) : omin (omin x y) z = omin x (omin y z) := by
  cases x <;> cases y <;> cases z <;> simp [omin, min_assoc]

theorem omax_comm (x y : Option Decimal) : omax x y = omax y x := by
  cases x <;> cases y <;> simp [omax, max_comm]

theorem omax_assoc (x y z : Option Decimal) : omax (omax x y) z = omax x (omax y z) := by
  cases x <;> cases y <;> cases z <;> simp [omax, max_assoc]

theorem omin_some_min? (x : Decimal) (l : List Decimal) :
    omin (some x) l.min? = (x :: l).min? := by
  rw [List.min?_cons]
  cases h : l.min? <;> simp [omin, Option.elim]

theorem omax_some_max? (x : Decimal) (l : List Decimal) :
    omax (some x) l.max? = (x :: l).max? := by
  rw [List.max?_cons]
  cases h : l.max? <;> simp [omax, Option.elim]

theorem head_key_mapUpdate {α : Type} {k : Decimal} {d : α} {f : α → α} :
    ∀ {m : List (Decimal × α)},
      (mapUpdate k d f m).head?.map Prod.fst = omin (some k) (m.head?.map Prod.fst)
  | [] => rfl
  | (k', v) :: rest => by
    simp only [mapUpdate]
    by_cases h1 : k < k'
    · rw [if_pos h1]
      simp [omin, min_eq_left (le_of_lt h1)]
    · rw [if_neg h1]
      by_cases h2 : k = k'
      · rw [if_pos h2]
        subst h2
        simp [omin]
      · rw [if_neg h2]
        have hk' : k' < k := by
          rcases lt_trichotomy k k' with h | h | h
          · exact absurd h h1
          · exact absurd h h2
          · exact h
        simp [omin, min_eq_right (le_of_lt hk')]

theorem sorted_head_le_getLast {α : Type} {k' : Decimal} {v : α}
    {rest : List (Decimal × α)} (hm : keysSorted ((k', v) :: rest)) {e : Decimal × α}
    (he : ((k', v) :: rest).getLast? = some e) : k' ≤ e.1 := by
  have hmem : e ∈ (k', v) :: rest := List.mem_of_getLast?_eq_some he
  rcases List.mem_cons.1 hmem with h | h
  · subst h; exact le_refl _
  · exact le_of_lt ((List.pairwise_cons.1 hm).1 e h)

theorem last_key_mapUpdate {α : Type} {k : Decimal} {d : α} {f : α → α} :
    ∀ {m : List (Decimal × α)}, keysSorted m →
      (mapUpdate k d f m).getLast?.map Prod.fst = omax (some k) (m.getLast?.map Prod.fst)
  | [], _ => rfl
  | (k', v) :: rest, hm => by
    have hrest : keysSorted rest := (List.pairwise_cons.1 hm).2
    simp only [mapUpdate]
    by_cases h1 : k < k'
    · rw [if_pos h1]
      rw [List.getLast?_cons_cons]
      cases he : ((k', v) :: rest).getLast? with
      | none => simp at he
      | some e =>
        have hk : k ≤ e.1 := le_of_lt (lt_of_lt_of_le h1 (sorted_head_le_getLast hm he))
        simp [omax, max_eq_right hk]
    · rw [if_neg h1]
      by_cases h2 : k = k'
      · rw [if_pos h2]
        subst h2
        cases rest with
        | nil => simp [omax]
        | cons e t =>
          rw [List.getLast?_cons_cons, List.getLast?_cons_cons]
          cases he : (e :: t).getLast? with
          | none => simp at he
          | some x =>
            have hx : x ∈ e :: t := List.mem_of_getLast?_eq_some he
            have hk : k ≤ x.1 := le_of_lt ((List.pairwise_cons.1 hm).1 x hx)
            simp [omax, max_eq_right hk]
      · rw [if_neg h2]
        have hk' : k' < k := by
          rcases lt_trichotomy k k' with h | h | h
          · exact absurd h h1
          · exact absurd h h2
          · exact h
        cases rest with
        | nil =>
          simp [mapUpdate, omax, max_eq_left (le_of_lt hk')]
        | cons e t =>
          have hne : mapUpdate k d f (e :: t) ≠ [] := by
            simp only [mapUpdate]
            by_cases ha : k < e.1
            · rw [if_pos ha]; simp
            · rw [if_neg ha]
              by_cases hb : k = e.1
              · rw [if_pos hb]; simp
              · rw [if_neg hb]; simp
          cases hu : mapUpdate k d f (e :: t) with
          | nil => exact absurd hu hne
          | cons u us =>
            rw [List.getLast?_cons_cons, ← hu,
              last_key_mapUpdate hrest, List.getLast?_cons_cons]

theorem mapGet_ext {α : Type} :
    ∀ {l₁ l₂ : List (Decimal × α)}, keysSorted l₁ → keysSorted l₂ →
      (∀ q, mapGet l₁ q = mapGet l₂ q) → l₁ = l₂
  | [], [], _, _, _ => rfl
  | [], (k₂, v₂) :: t₂, _, _, h => by
    have := h k₂
    simp [mapGet] at this
  | (k₁, v₁) :: t₁, [], _, _, h => by
    have := h k₁
    simp [mapGet] at this
  | (k₁, v₁) :: t₁, (k₂, v₂) :: t₂, h₁, h₂, h => by
    have hh₁ : ∀ kv ∈ t₁, k₁ < kv.1 := (List.pairwise_cons.1 h₁).1
    have hh₂ : ∀ kv ∈ t₂, k₂ < kv.1 := (List.pairwise_cons.1 h₂).1
    have hk : k₁ = k₂ := by
      rcases lt_trichotomy k₁ k₂ with hlt | heq | hgt
      · exfalso
        have h1 := h k₁
        have hn₂ : mapGet t₂ k₁ = none :=
          mapGet_eq_none_of_forall_ne fun kv hkv => ne_of_lt (lt_trans hlt (hh₂ kv hkv))
        simp [mapGet, ne_of_lt hlt, hn₂] at h1
      · exact heq
      · exfalso
        have h1 := h k₂
        have hn₁ : mapGet t₁ k₂ = none :=
          mapGet_eq_none_of_forall_ne fun kv hkv => (ne_of_lt (lt_trans hgt (hh₁ kv hkv)))
        simp [mapGet, ne_of_lt hgt, hn₁] at h1
    subst hk
    have hv : v₁ = v₂ := by
      have h1 := h k₁
      simpa [mapGet] using h1
    subst hv
    have htails : ∀ q, mapGet t₁ q = mapGet t₂ q := by
      intro q
      by_cases hq : q = k₁
      · subst hq
        rw [mapGet_eq_none_of_forall_ne fun kv hkv => ne_of_lt (hh₁ kv hkv),
          mapGet_eq_none_of_forall_ne fun kv hkv => ne_of_lt (hh₂ kv hkv)]
      · have h1 := h q
        simpa [mapGet, hq] using h1
    rw [mapGet_ext (List.pairwise_cons.1 h₁).2 (List.pairwise_cons.1 h₂).2 htails]

theorem sorted_min?_eq_head? :
    ∀ {l : List Decimal}, List.Pairwise (fun a b => a < b) l → l.min? = l.head?
  | [], _ => rfl
  | x :: xs, h => by
    rw [List.min?_cons]
    cases hx : xs.min? with
    | none => simp [Option.elim]
    | some m =>
      have hm : m ∈ xs := List.min?_mem (fun a b => min_choice a b) hx
      have hxm : x < m := (List.pairwise_cons.1 h).1 m hm
      simp [Option.elim, min_eq_left (le_of_lt hxm)]

theorem sorted_max?_eq_getLast? :
    ∀ {l : List Decimal}, List.Pairwise (fun a b => a < b) l → l.max? = l.getLast?
  | [], _ => rfl
  | [x], _ => by
    rw [List.max?_cons]
    simp [Option.elim]
  | x :: y :: t, h => by
    have htail : List.Pairwise (fun a b => a < b) (y :: t) := (List.pairwise_cons.1 h).2
    rw [List.max?_cons, List.getLast?_cons_cons, ← sorted_max?_eq_getLast? htail,
      List.max?_cons]
    cases hx : (t : List Decimal).max? with
    | none =>
      have hxy : x < y := (List.pairwise_cons.1 h).1 y (List.mem_cons_self _ _)
      simp [Option.elim, max_eq_right (le_of_lt hxy)]
    | some m =>
      have hm : m ∈ t := List.max?_mem (α := Decimal) (fun a b => max_choice a b) hx
      have hxm : x < max y m := lt_of_lt_of_le
        ((List.pairwise_cons.1 h).1 (max y m) (by
          rcases max_choice y m with hc | hc
          · rw [hc]; exact List.mem_cons_self _ _
          · rw [hc]; exact List.mem_cons_of_mem _ hm)) (le_refl _)
      simp [Option.elim, max_eq_right (le_of_lt hxm)]

/-! Lemmas about `OrderBook`. -/

theorem omin_none_right (x : Option Decimal) : omin x none = x := by
  cases x <;> rfl

theorem omax_none_right (x : Option Decimal) : omax x none = x := by
  cases x <;> rfl

theorem insert_order_snd (book : OrderBook) (o : Order) :
    (book.insert_order o).2 = order_event_of o := by
  obtain ⟨p, q, s⟩ := o
  cases s <;> rfl

theorem insert_order_side_map_self (book : OrderBook) (o : Order) :
    (book.insert_order o).1.side_map o.side =
      mapUpdate o.price [] (fun orders => orders ++ [o]) (book.side_map o.side) := by
  obtain ⟨p, q, s⟩ := o
  cases s <;> rfl

theorem insert_order_side_map_opposite (book : OrderBook) (o : Order) :
    (book.insert_order o).1.side_map o.side.opposite = book.side_map o.side.opposite := by
  obtain ⟨p, q, s⟩ := o
  cases s <;> rfl

theorem wf_new_book : OrderBook.new.Wf :=
  ⟨List.Pairwise.nil, List.Pairwise.nil⟩

theorem wf_insert_order {book : OrderBook} (hb : book.Wf) (o : Order) :
    (book.insert_order o).1.Wf := by
  obtain ⟨p, q, s⟩ := o
  cases s
  · exact ⟨hb.1, keysSorted_mapUpdate hb.2⟩
  · exact ⟨keysSorted_mapUpdate hb.1, hb.2⟩

theorem insert_all_cons (book : OrderBook) (o : Order) (rest : List Order) :
    OrderBook.insert_all book (o :: rest) =
      OrderBook.insert_all (book.insert_order o).1 rest :=
  rfl

theorem wf_insert_all :
    ∀ (orders : List Order) {book : OrderBook}, book.Wf →
      (OrderBook.insert_all book orders).Wf
  | [], _, hb => hb
  | o :: rest, _, hb => by
    rw [insert_all_cons]
    exact wf_insert_all rest (wf_insert_order hb o)

theorem run_events_eq :
    ∀ (orders : List Order) (book : OrderBook),
      OrderBook.run_events book orders =
        (OrderBook.insert_all book orders, orders.map order_event_of)
  | [], book => rfl
  | o :: rest, book => by
    simp only [OrderBook.run_events, run_events_eq rest, insert_all_cons,
      List.map_cons, insert_order_snd]

theorem insert_all_asks_head :
    ∀ (orders : List Order) (book : OrderBook),
      (OrderBook.insert_all book orders).asks.head?.map Prod.fst =
        omin (book.asks.head?.map Prod.fst) ((ask_prices orders).min?)
  | [], book => by
    simp [OrderBook.insert_all, ask_prices, omin_none_right]
  | o :: rest, book => by
    rw [insert_all_cons, insert_all_asks_head rest]
    obtain ⟨p, q, s⟩ := o
    cases s
    · have hasks : (book.insert_order ⟨p, q, Side.Bid⟩).1.asks = book.asks := rfl
      have hprices : ask_prices (⟨p, q, Side.Bid⟩ :: rest) = ask_prices rest := by
        simp [ask_prices, List.filter_cons]
      rw [hasks, hprices]
    · have hasks : (book.insert_order ⟨p, q, Side.Ask⟩).1.asks =
          mapUpdate p [] (fun orders => orders ++ [⟨p, q, Side.Ask⟩]) book.asks := rfl
      have hprices : ask_prices (⟨p, q, Side.Ask⟩ :: rest) = p :: ask_prices rest := by
        simp [ask_prices, List.filter_cons]
      rw [hasks, hprices, head_key_mapUpdate, ← omin_some_min?,
        ← omin_assoc, omin_comm (some p) _, omin_assoc]

theorem insert_all_bids_last :
    ∀ (orders : List Order) {book : OrderBook}, book.Wf →
      (OrderBook.insert_all book orders).bids.getLast?.map Prod.fst =
        omax (book.bids.getLast?.map Prod.fst) ((bid_prices orders).max?)
  | [], book, _ => by
    simp [OrderBook.insert_all, bid_prices, omax_none_right]
  | o :: rest, book, hb => by
    rw [insert_all_cons, insert_all_bids_last rest (wf_insert_order hb o)]
    obtain ⟨p, q, s⟩ := o
    cases s
    · have hbids : (book.insert_order ⟨p, q, Side.Bid⟩).1.bids =
          mapUpdate p [] (fun orders => orders ++ [⟨p, q, Side.Bid⟩]) book.bids := rfl
      have hprices : bid_prices (⟨p, q, Side.Bid⟩ :: rest) = p :: bid_prices rest := by
        simp [bid_prices, List.filter_cons]
      rw [hbids, hprices, last_key_mapUpdate hb.2, ← omax_some_max?,
        ← omax_assoc, omax_comm (some p) _, omax_assoc]
    · have hbids : (book.insert_order ⟨p, q, Side.Ask⟩).1.bids = book.bids := rfl
      have hprices : bid_prices (⟨p, q, Side.Ask⟩ :: rest) = bid_prices rest := by
        simp [bid_prices, List.filter_cons]
      rw [hbids, hprices]

/-! Lemmas about `MarketDepthCache`. -/

theorem u64_mod_pos : 0 < U64_MOD := by
  norm_num [U64_MOD]

theorem wf_new_cache : MarketDepthCache.new.Wf :=
  ⟨List.Pairwise.nil, List.Pairwise.nil, by simp [MarketDepthCache.new],
    by simp [MarketDepthCache.new]⟩

theorem side_depth_sorted {cache : MarketDepthCache} (hc : cache.Wf) (S : Side) :
    keysSorted (cache.side_depth S) := by
  cases S
  · exact hc.1
  · exact hc.2.1

theorem side_depth_values {cache : MarketDepthCache} (hc : cache.Wf) (S : Side) :
    ∀ kv ∈ cache.side_depth S, kv.2 < U64_MOD := by
  cases S
  · exact hc.2.2.1
  · exact hc.2.2.2

theorem get_quantity_lt {cache : MarketDepthCache} (hc : cache.Wf)
    (L : Decimal) (S : Side) : cache.get_quantity_at_level L S < U64_MOD := by
  unfold MarketDepthCache.get_quantity_at_level
  cases hm : mapGet (cache.side_depth S) L with
  | none => exact u64_mod_pos
  | some v => exact side_depth_values hc S (L, v) (mapGet_mem hm)

theorem process_side_depth_self (cache : MarketDepthCache) (e : OrderEvent) :
    (cache.process_order_event e).side_depth e.side =
      mapUpdate (OrderBook.aggregate_price_to_level e.price) 0
        (fun q => (q + e.quantity_delta) % U64_MOD) (cache.side_depth e.side) := by
  obtain ⟨p, d, s⟩ := e
  cases s <;> rfl

theorem process_side_depth_opposite (cache : MarketDepthCache) (e : OrderEvent) :
    (cache.process_order_event e).side_depth e.side.opposite =
      cache.side_depth e.side.opposite := by
  obtain ⟨p, d, s⟩ := e
  cases s <;> rfl

theorem wf_process_order_event {cache : MarketDepthCache} (hc : cache.Wf)
    (e : OrderEvent) : (cache.process_order_event e).Wf := by
  obtain ⟨p, d, s⟩ := e
  have hmod : ∀ v : ℕ, (v + d) % U64_MOD < U64_MOD := fun v =>
    Nat.mod_lt _ u64_mod_pos
  cases s
  · exact ⟨keysSorted_mapUpdate hc.1,
      hc.2.1,
      mapUpdate_forall_snd (P := fun v => v < U64_MOD) hc.2.2.1 (hmod 0) (fun v _ => hmod v),
      hc.2.2.2⟩
  · exact ⟨hc.1,
      keysSorted_mapUpdate hc.2.1,
      hc.2.2.1,
      mapUpdate_forall_snd (P := fun v => v < U64_MOD) hc.2.2.2 (hmod 0) (fun v _ => hmod v)⟩

theorem side_depth_ne {cache : MarketDepthCache} {s S : Side} (h : s ≠ S)
    (e : OrderEvent) (he : e.side = s) :
    (cache.process_order_event e).side_depth S = cache.side_depth S := by
  have : S = e.side.opposite := by
    rw [he]
    cases s <;> cases S <;> first | rfl | exact absurd rfl h
  rw [this, process_side_depth_opposite]

theorem mapGet_side_process {cache : MarketDepthCache} (hc : cache.Wf)
    (e : OrderEvent) (L : Decimal) (S : Side) :
    mapGet ((cache.process_order_event e).side_depth S) L =
      if event_matches L S e then
        some ((cache.get_quantity_at_level L S + e.quantity_delta) % U64_MOD)
      else mapGet (cache.side_depth S) L := by
  by_cases hs : e.side = S
  · have hself : (cache.process_order_event e).side_depth S =
        mapUpdate (OrderBook.aggregate_price_to_level e.price) 0
          (fun q => (q + e.quantity_delta) % U64_MOD) (cache.side_depth S) := by
      rw [← hs]
      exact process_side_depth_self cache e
    by_cases hL : OrderBook.aggregate_price_to_level e.price = L
    · have hmatch : event_matches L S e = true := by
        simp [event_matches, hs, hL]
      rw [hself, hL, mapGet_mapUpdate_self (side_depth_sorted hc S)]
      simp [hmatch, MarketDepthCache.get_quantity_at_level]
    · have hmatch : event_matches L S e = false := by
        simp [event_matches, hL]
      rw [hself, mapGet_mapUpdate_ne (fun hLk => hL hLk.symm)]
      simp [hmatch]
  · have hmatch : event_matches L S e = false := by
      simp [event_matches, hs]
    rw [side_depth_ne hs e rfl]
    simp [hmatch]

theorem get_quantity_process {cache : MarketDepthCache} (hc : cache.Wf)
    (e : OrderEvent) (L : Decimal) (S : Side) :
    (cache.process_order_event e).get_quantity_at_level L S =
      if event_matches L S e then
        (cache.get_quantity_at_level L S + e.quantity_delta) % U64_MOD
      else cache.get_quantity_at_level L S := by
  have h := mapGet_side_process hc e L S
  by_cases hmatch : event_matches L S e
  · rw [if_pos hmatch] at h
    show (mapGet ((cache.process_order_event e).side_depth S) L).getD 0 = _
    rw [h, if_pos hmatch]
    rfl
  · rw [if_neg hmatch] at h
    show (mapGet ((cache.process_order_event e).side_depth S) L).getD 0 = _
    rw [h, if_neg hmatch]
    rfl

theorem sum_deltas_cons (e : OrderEvent) (rest : List OrderEvent)
    (L : Decimal) (S : Side) :
    sum_deltas (e :: rest) L S =
      (if event_matches L S e then e.quantity_delta else 0) + sum_deltas rest L S := by
  by_cases hmatch : event_matches L S e
  · simp [sum_deltas, List.filter_cons, hmatch]
  · simp [sum_deltas, List.filter_cons, hmatch]

theorem process_all_cons (cache : MarketDepthCache) (e : OrderEvent)
    (rest : List OrderEvent) :
    MarketDepthCache.process_all cache (e :: rest) =
      MarketDepthCache.process_all (cache.process_order_event e) rest :=
  rfl

theorem wf_process_all :
    ∀ (events : List OrderEvent) {cache : MarketDepthCache}, cache.Wf →
      (MarketDepthCache.process_all cache events).Wf
  | [], _, hc => hc
  | e :: rest, _, hc => by
    rw [process_all_cons]
    exact wf_process_all rest (wf_process_order_event hc e)

theorem get_quantity_process_all :
    ∀ (events : List OrderEvent) {cache : MarketDepthCache}, cache.Wf →
      ∀ (L : Decimal) (S : Side),
        (MarketDepthCache.process_all cache events).get_quantity_at_level L S =
          (cache.get_quantity_at_level L S + sum_deltas events L S) % U64_MOD
  | [], cache, hc, L, S => by
    simp [MarketDepthCache.process_all, sum_deltas,
      Nat.mod_eq_of_lt (get_quantity_lt hc L S)]
  | e :: rest, cache, hc, L, S => by
    rw [process_all_cons,
      get_quantity_process_all rest (wf_process_order_event hc e) L S,
      get_quantity_process hc e L S, sum_deltas_cons]
    by_cases hmatch : event_matches L S e
    · rw [if_pos hmatch, if_pos hmatch, Nat.mod_add_mod, Nat.add_assoc]
    · rw [if_neg hmatch, if_neg hmatch, Nat.zero_add]

theorem sum_deltas_eq_zero {events : List OrderEvent} {L : Decimal} {S : Side}
    (h : events.any (event_matches L S) = false) : sum_deltas events L S = 0 := by
  have hnil : events.filter (event_matches L S) = [] :=
    List.filter_eq_nil_iff.2 (List.any_eq_false.1 h)
  simp [sum_deltas, hnil]

theorem mapGet_side_process_all :
    ∀ (events : List OrderEvent) {cache : MarketDepthCache}, cache.Wf →
      ∀ (L : Decimal) (S : Side),
        mapGet ((MarketDepthCache.process_all cache events).side_depth S) L =
          if events.any (event_matches L S) then
            some ((cache.get_quantity_at_level L S + sum_deltas events L S) % U64_MOD)
          else mapGet (cache.side_depth S) L
  | [], cache, hc, L, S => by
    simp [MarketDepthCache.process_all]
  | e :: rest, cache, hc, L, S => by
    rw [process_all_cons,
      mapGet_side_process_all rest (wf_process_order_event hc e) L S]
    by_cases hm : event_matches L S e <;> by_cases hr : rest.any (event_matches L S) <;>
      simp [get_quantity_process hc e L S, mapGet_side_process hc e L S, hm, hr,
        sum_deltas_cons, sum_deltas_eq_zero, Nat.mod_add_mod, Nat.add_assoc]

theorem perm_any {l l' : List OrderEvent} (p : OrderEvent → Bool)
    (h : l.Perm l') : l.any p = l'.any p := by
  cases hb : l'.any p
  · rw [List.any_eq_false] at hb ⊢
    intro x hx
    exact hb x (h.mem_iff.1 hx)
  · rw [List.any_eq_true] at hb ⊢
    obtain ⟨x, hx, hpx⟩ := hb
    exact ⟨x, h.mem_iff.2 hx, hpx⟩

theorem sum_deltas_perm {es es' : List OrderEvent} (h : es.Perm es')
    (L : Decimal) (S : Side) : sum_deltas es L S = sum_deltas es' L S :=
  ((h.filter (event_matches L S)).map OrderEvent.quantity_delta).sum_eq

theorem cache_eq_of_mapGet_eq {c₁ c₂ : MarketDepthCache} (h₁ : c₁.Wf) (h₂ : c₂.Wf)
    (h : ∀ (S : Side) (L : Decimal),
      mapGet (c₁.side_depth S) L = mapGet (c₂.side_depth S) L) : c₁ = c₂ := by
  obtain ⟨b₁, a₁⟩ := c₁
  obtain ⟨b₂, a₂⟩ := c₂
  have hb : b₁ = b₂ := mapGet_ext h₁.1 h₂.1 (h Side.Bid)
  have ha : a₁ = a₂ := mapGet_ext h₁.2.1 h₂.2.1 (h Side.Ask)
  rw [hb, ha]

theorem process_all_perm {cache : MarketDepthCache} (hc : cache.Wf)
    {es es' : List OrderEvent} (h : es.Perm es') :
    MarketDepthCache.process_all cache es = MarketDepthCache.process_all cache es' :=
  cache_eq_of_mapGet_eq (wf_process_all es hc) (wf_process_all es' hc) fun S L => by
    rw [mapGet_side_process_all es hc L S, mapGet_side_process_all es' hc L S,
      perm_any _ h, sum_deltas_perm h L S]

theorem sum_deltas_map_events (orders : List Order) (L : Decimal) (S : Side) :
    sum_deltas (orders.map order_event_of) L S = sum_quantities orders L S := by
  unfold sum_deltas sum_quantities
  rw [List.filter_map, List.map_map]
  rfl

/-! Characterisation of `aggregate_price_to_level` as truncation toward
zero. -/

theorem aggregate_nonneg_eq_floor {q : ℚ} (h : 0 ≤ q) :
    OrderBook.aggregate_price_to_level q = ((⌊q⌋ : ℤ) : ℚ) := by
  unfold OrderBook.aggregate_price_to_level
  rw [Int.tdiv_eq_ediv (Rat.num_nonneg.2 h) (Int.natCast_nonneg _), ← Rat.floor_def]

theorem aggregate_neg_eq_ceil {q : ℚ} (h : q < 0) :
    OrderBook.aggregate_price_to_level q = ((⌈q⌉ : ℤ) : ℚ) := by
  have h1 : ((-q).num).tdiv ((-q).den : ℤ) = ⌊-q⌋ := by
    rw [Int.tdiv_eq_ediv (Rat.num_nonneg.2 (by linarith)) (Int.natCast_nonneg _),
      ← Rat.floor_def]
  rw [Rat.neg_num, Rat.neg_den, Int.neg_tdiv] at h1
  have hc : (⌈q⌉ : ℤ) = -⌊-q⌋ := by
    have := Int.ceil_neg (α := ℚ) (a := -q)
    simpa using this
  have key : q.num.tdiv (q.den : ℤ) = ⌈q⌉ := by
    rw [hc]
    omega
  unfold OrderBook.aggregate_price_to_level
  rw [key]

/-! Claim theorems. -/

/-- C1: the claim states that `Order::new` on a floating input with no exact
decimal representation returns a recoverable error value rather than aborting
the process.  The code does the opposite: `Decimal::try_from(price).unwrap()`
panics — a process abort — on every such failing conversion (NaN shown here,
and any finite value beyond the decimal range), and no error value exists in
the signature. -/
theorem C1_order_new_aborts :
    Order.new F64.nan 1 Side.Bid = OrderNewResult.processAbort ∧
      Order.new (F64.finite ((10 : ℚ) ^ 29)) 1 Side.Bid = OrderNewResult.processAbort := by
  constructor
  · rfl
  · decide

/-- C5: `insert_order` mutates only the ordering of the side named by the
order's `side` field; the opposite side's entire map (keys and stored
sequences) is unchanged. -/
theorem C5_insert_order_frame (book : OrderBook) (o : Order) :
    (book.insert_order o).1.side_map o.side.opposite = book.side_map o.side.opposite := by
  obtain ⟨p, q, s⟩ := o
  cases s <;> rfl

/-- C6: `aggregate_price_to_level` is a total function truncating toward zero
to the integer part (floor on nonnegative prices, ceiling on negative ones),
with the concrete boundary values 99.99 ↦ 99, 100.00 ↦ 100, 100.01 ↦ 100,
99.00 ↦ 99. -/
theorem C6_aggregate_truncates :
    (∀ q : Decimal,
        (0 ≤ q → OrderBook.aggregate_price_to_level q = ((⌊q⌋ : ℤ) : ℚ)) ∧
        (q < 0 → OrderBook.aggregate_price_to_level q = ((⌈q⌉ : ℤ) : ℚ))) ∧
      OrderBook.aggregate_price_to_level (mkRat 9999 100) = 99 ∧
      OrderBook.aggregate_price_to_level 100 = 100 ∧
      OrderBook.aggregate_price_to_level (mkRat 10001 100) = 100 ∧
      OrderBook.aggregate_price_to_level 99 = 99 := by
  refine ⟨fun q => ⟨fun h => aggregate_nonneg_eq_floor h,
    fun h => aggregate_neg_eq_ceil h⟩, ?_, ?_, ?_, ?_⟩ <;> decide

/-- Witness for C6: the truncation characterisation applied at the concrete
prices 11/2 (floor) and -11/2 (ceiling), discharging the sign hypotheses. -/
theorem C6_aggregate_truncates_witness :
    OrderBook.aggregate_price_to_level (mkRat 11 2) = ((⌊(mkRat 11 2 : ℚ)⌋ : ℤ) : ℚ) ∧
      OrderBook.aggregate_price_to_level (mkRat (-11) 2) =
        ((⌈(mkRat (-11) 2 : ℚ)⌉ : ℤ) : ℚ) :=
  ⟨(C6_aggregate_truncates.1 (mkRat 11 2)).1 (by decide),
    (C6_aggregate_truncates.1 (mkRat (-11) 2)).2 (by decide)⟩

/-- C7: applying a multiset of events to the same starting cache in any order
yields the same cache (hence the same per-level totals on both sides):
per-level accumulation is pure addition modulo `2 ^ 64`, which is commutative
and associative. -/
theorem C7_process_commutative (cache : MarketDepthCache) (hc : cache.Wf)
    (es es' : List OrderEvent) (h : es.Perm es') :
    MarketDepthCache.process_all cache es = MarketDepthCache.process_all cache es' :=
  process_all_perm hc h

/-- Witness for C7: two events on different sides processed in both orders
from the fresh cache, hypotheses discharged by evaluation. -/
theorem C7_process_commutative_witness :
    MarketDepthCache.process_all MarketDepthCache.new
        [⟨mkRat 199 2, 10, Side.Bid⟩, ⟨mkRat 401 4, 20, Side.Ask⟩] =
      MarketDepthCache.process_all MarketDepthCache.new
        [⟨mkRat 401 4, 20, Side.Ask⟩, ⟨mkRat 199 2, 10, Side.Bid⟩] :=
  C7_process_commutative MarketDepthCache.new (by decide) _ _ (by decide)

/-- C8: a freshly constructed book answers every query with the empty result
(`(None, None)` spread, zero level counts, zero orders at every price), and a
freshly constructed cache — or any cache right after `clear` — reports zero
quantity at every level and zero level counts. -/
theorem C8_empty_state :
    OrderBook.new.compute_spread = (none, none) ∧
    OrderBook.new.bid_levels_count = 0 ∧
    OrderBook.new.ask_levels_count = 0 ∧
    (∀ (p : Decimal) (s : Side), OrderBook.new.orders_at_price_level p s = 0) ∧
    (∀ (L : Decimal) (s : Side), MarketDepthCache.new.get_quantity_at_level L s = 0) ∧
    MarketDepthCache.new.bid_levels_count = 0 ∧
    MarketDepthCache.new.ask_levels_count = 0 ∧
    (∀ (c : MarketDepthCache) (L : Decimal) (s : Side),
      c.clear.get_quantity_at_level L s = 0) ∧
    (∀ c : MarketDepthCache,
      c.clear.bid_levels_count = 0 ∧ c.clear.ask_levels_count = 0) := by
  refine ⟨rfl, rfl, rfl, fun p s => ?_, fun L s => ?_, rfl, rfl, fun c L s => ?_,
    fun c => ⟨rfl, rfl⟩⟩
  · cases s <;> rfl
  · cases s <;> rfl
  · cases s <;> rfl

/-- C3: `compute_spread` returns (maximum bid key or `None`, minimum ask key
or `None`); equivalently, after any sequence of insertions into a fresh book
it returns (maximum exact inserted bid price, minimum exact inserted ask
price). -/
theorem C3_compute_spread :
    (∀ book : OrderBook, book.Wf →
        book.compute_spread =
          ((book.bids.map Prod.fst).max?, (book.asks.map Prod.fst).min?)) ∧
      (∀ orders : List Order,
        (OrderBook.insert_all OrderBook.new orders).compute_spread =
          ((bid_prices orders).max?, (ask_prices orders).min?)) := by
  constructor
  · intro book hb
    unfold OrderBook.compute_spread
    rw [sorted_max?_eq_getLast? (List.pairwise_map.2 hb.2),
      sorted_min?_eq_head? (List.pairwise_map.2 hb.1),
      List.getLast?_map, List.head?_map]
  · intro orders
    unfold OrderBook.compute_spread
    rw [insert_all_bids_last orders wf_new_book, insert_all_asks_head orders OrderBook.new]
    rfl

/-- Witness for C3: the key-boundary form applied to a concrete well-formed
book with one ask bucket and one bid bucket, the sortedness hypothesis
discharged by evaluation. -/
theorem C3_compute_spread_witness :
    (OrderBook.mk [(mkRat 401 4, [⟨mkRat 401 4, 20, Side.Ask⟩])]
        [(mkRat 199 2, [⟨mkRat 199 2, 10, Side.Bid⟩])]).compute_spread =
      (((OrderBook.mk [(mkRat 401 4, [⟨mkRat 401 4, 20, Side.Ask⟩])]
          [(mkRat 199 2, [⟨mkRat 199 2, 10, Side.Bid⟩])]).bids.map Prod.fst).max?,
        ((OrderBook.mk [(mkRat 401 4, [⟨mkRat 401 4, 20, Side.Ask⟩])]
          [(mkRat 199 2, [⟨mkRat 199 2, 10, Side.Bid⟩])]).asks.map Prod.fst).min?) :=
  C3_compute_spread.1 _ (by decide)

/-- C4: for every structurally valid order, `insert_order` is total (the
model is a total function), returns exactly one event carrying the order's
exact price, quantity and side, and appends the order to the end of the
sequence stored under its exact price on its side, creating the bucket if
absent — preserving FIFO arrival order within the level. -/
theorem C4_insert_order_appends (book : OrderBook) (o : Order) (hb : book.Wf) :
    (book.insert_order o).2 =
        { price := o.price, quantity_delta := o.quantity, side := o.side } ∧
      orders_list_at (book.insert_order o).1 o.price o.side =
        orders_list_at book o.price o.side ++ [o] := by
  refine ⟨insert_order_snd book o, ?_⟩
  have hside : keysSorted (book.side_map o.side) := by
    cases hs : o.side
    · exact hb.2
    · exact hb.1
  unfold orders_list_at
  rw [insert_order_side_map_self, mapGet_mapUpdate_self hside]
  rfl

/-- Witness for C4: inserting a concrete ask into the empty book, the
well-formedness hypothesis discharged by evaluation. -/
theorem C4_insert_order_appends_witness :
    (OrderBook.new.insert_order ⟨mkRat 201 2, 5, Side.Ask⟩).2 =
        { price := mkRat 201 2, quantity_delta := 5, side := Side.Ask } ∧
      orders_list_at (OrderBook.new.insert_order ⟨mkRat 201 2, 5, Side.Ask⟩).1
          (mkRat 201 2) Side.Ask =
        orders_list_at OrderBook.new (mkRat 201 2) Side.Ask ++
          [⟨mkRat 201 2, 5, Side.Ask⟩] :=
  C4_insert_order_appends OrderBook.new ⟨mkRat 201 2, 5, Side.Ask⟩ (by decide)

/-- C9: no operation removes a price bucket — the only mutator,
`insert_order`, never decreases either side's distinct-level count — and an
insertion at exact price P on side S increases `orders_at_price_level(P, S)`
by exactly one while leaving every other (price, side) count unchanged. -/
theorem C9_buckets_monotone (book : OrderBook) (o : Order) (hb : book.Wf) :
    book.bid_levels_count ≤ (book.insert_order o).1.bid_levels_count ∧
      book.ask_levels_count ≤ (book.insert_order o).1.ask_levels_count ∧
      (book.insert_order o).1.orders_at_price_level o.price o.side =
        book.orders_at_price_level o.price o.side + 1 ∧
      (∀ (p : Decimal) (s : Side), ¬(p = o.price ∧ s = o.side) →
        (book.insert_order o).1.orders_at_price_level p s =
          book.orders_at_price_level p s) := by
  obtain ⟨p0, q0, s0⟩ := o
  cases s0
  · refine ⟨length_le_mapUpdate, le_refl _, ?_, ?_⟩
    · show ((mapGet (mapUpdate p0 [] _ book.bids) p0).map List.length).getD 0 = _
      rw [mapGet_mapUpdate_self hb.2]
      show (((mapGet book.bids p0).getD [] ++ _).length) = _
      cases hm : mapGet book.bids p0 <;>
        simp [OrderBook.orders_at_price_level, OrderBook.side_map, hm]
    · intro p s hps
      cases s
      · have hp : p ≠ p0 := fun hp => hps ⟨hp, rfl⟩
        show ((mapGet (mapUpdate p0 [] _ book.bids) p).map List.length).getD 0 = _
        rw [mapGet_mapUpdate_ne hp]
        rfl
      · rfl
  · refine ⟨le_refl _, length_le_mapUpdate, ?_, ?_⟩
    · show ((mapGet (mapUpdate p0 [] _ book.asks) p0).map List.length).getD 0 = _
      rw [mapGet_mapUpdate_self hb.1]
      show (((mapGet book.asks p0).getD [] ++ _).length) = _
      cases hm : mapGet book.asks p0 <;>
        simp [OrderBook.orders_at_price_level, OrderBook.side_map, hm]
    · intro p s hps
      cases s
      · rfl
      · have hp : p ≠ p0 := fun hp => hps ⟨hp, rfl⟩
        show ((mapGet (mapUpdate p0 [] _ book.asks) p).map List.length).getD 0 = _
        rw [mapGet_mapUpdate_ne hp]
        rfl

/-- Witness for C9: inserting a concrete bid into a well-formed one-bucket
book, the well-formedness hypothesis discharged by evaluation. -/
theorem C9_buckets_monotone_witness :
    (OrderBook.mk [] [(mkRat 199 2, [⟨mkRat 199 2, 10, Side.Bid⟩])]).bid_levels_count ≤
        ((OrderBook.mk [] [(mkRat 199 2, [⟨mkRat 199 2, 10, Side.Bid⟩])]).insert_order
          ⟨mkRat 199 2, 7, Side.Bid⟩).1.bid_levels_count ∧
      (OrderBook.mk [] [(mkRat 199 2, [⟨mkRat 199 2, 10, Side.Bid⟩])]).ask_levels_count ≤
        ((OrderBook.mk [] [(mkRat 199 2, [⟨mkRat 199 2, 10, Side.Bid⟩])]).insert_order
          ⟨mkRat 199 2, 7, Side.Bid⟩).1.ask_levels_count ∧
      ((OrderBook.mk [] [(mkRat 199 2, [⟨mkRat 199 2, 10, Side.Bid⟩])]).insert_order
          ⟨mkRat 199 2, 7, Side.Bid⟩).1.orders_at_price_level (mkRat 199 2) Side.Bid =
        (OrderBook.mk [] [(mkRat 199 2, [⟨mkRat 199 2, 10, Side.Bid⟩])]).orders_at_price_level
          (mkRat 199 2) Side.Bid + 1 ∧
      (∀ (p : Decimal) (s : Side), ¬(p = mkRat 199 2 ∧ s = Side.Bid) →
        ((OrderBook.mk [] [(mkRat 199 2, [⟨mkRat 199 2, 10, Side.Bid⟩])]).insert_order
            ⟨mkRat 199 2, 7, Side.Bid⟩).1.orders_at_price_level p s =
          (OrderBook.mk [] [(mkRat 199 2, [⟨mkRat 199 2, 10, Side.Bid⟩])]).orders_at_price_level
            p s) :=
  C9_buckets_monotone (OrderBook.mk [] [(mkRat 199 2, [⟨mkRat 199 2, 10, Side.Bid⟩])])
    ⟨mkRat 199 2, 7, Side.Bid⟩ (by decide)

/-- C2 as stated is false on the code: two bid orders of quantity `2 ^ 63` at
price 100.5 are inserted and their events processed; the `u64` total at
aggregated level 100 wraps around to 0, while the sum of the inserted
quantities is `2 ^ 64`. -/
theorem C2_aggregation_counterexample :
    (MarketDepthCache.process_all MarketDepthCache.new
        (book_events [⟨mkRat 201 2, 2 ^ 63, Side.Bid⟩,
          ⟨mkRat 201 2, 2 ^ 63, Side.Bid⟩])).get_quantity_at_level 100 Side.Bid ≠
      sum_quantities [⟨mkRat 201 2, 2 ^ 63, Side.Bid⟩, ⟨mkRat 201 2, 2 ^ 63, Side.Bid⟩]
        100 Side.Bid := by
  decide

/-- C2 (amended with the overflow hypothesis forced by the counterexample):
for every finite sequence of orders inserted into a fresh book with the
returned events fed to a fresh cache in any interleaving, and every level and
side whose true total fits in a `u64`, the cached quantity equals the sum of
the quantities of exactly the inserted orders on that side whose price
truncates to that level. -/
theorem C2_aggregation_correct (orders : List Order) (es : List OrderEvent)
    (hperm : es.Perm (book_events orders)) (L : Decimal) (S : Side)
    (hfit : sum_quantities orders L S < U64_MOD) :
    (MarketDepthCache.process_all MarketDepthCache.new es).get_quantity_at_level L S =
      sum_quantities orders L S := by
  rw [get_quantity_process_all es wf_new_cache L S]
  have hnew : MarketDepthCache.new.get_quantity_at_level L S = 0 := by
    cases S <;> rfl
  have hev : book_events orders = orders.map order_event_of := by
    rw [book_events, run_events_eq]
  rw [hnew, Nat.zero_add, sum_deltas_perm hperm L S, hev, sum_deltas_map_events,
    Nat.mod_eq_of_lt hfit]

/-- Witness for C2: the spec's own scenario — bids 99.50×10 and 99.01×5 fed
to the cache in reversed event order still total 15 at bid level 99; the
permutation and fitting hypotheses are discharged by evaluation. -/
theorem C2_aggregation_correct_witness :
    (MarketDepthCache.process_all MarketDepthCache.new
        [⟨mkRat 9901 100, 5, Side.Bid⟩, ⟨mkRat 199 2, 10, Side.Bid⟩]).get_quantity_at_level
        99 Side.Bid =
      sum_quantities [⟨mkRat 199 2, 10, Side.Bid⟩, ⟨mkRat 9901 100, 5, Side.Bid⟩]
        99 Side.Bid :=
  C2_aggregation_correct [⟨mkRat 199 2, 10, Side.Bid⟩, ⟨mkRat 9901 100, 5, Side.Bid⟩]
    [⟨mkRat 9901 100, 5, Side.Bid⟩, ⟨mkRat 199 2, 10, Side.Bid⟩]
    (by decide) 99 Side.Bid (by decide)

/-- C10: cache totals are `u64` accumulated by unchecked native addition —
modelled as wrap-around modulo `2 ^ 64` (the release profile; a checked build
panics instead).  Aggregation correctness therefore holds exactly under the
hypothesis that the true per-level sum fits in 64 bits, and a sequence whose
deltas sum past `2 ^ 64 - 1` stores the wrapped value `sum % 2 ^ 64`, which
differs from the true sum — the addition neither saturates nor reports an
error. -/
theorem C10_u64_wraparound :
    (∀ (es : List OrderEvent) (L : Decimal) (S : Side),
        sum_deltas es L S < U64_MOD →
        (MarketDepthCache.process_all MarketDepthCache.new es).get_quantity_at_level L S =
          sum_deltas es L S) ∧
      ((MarketDepthCache.process_all MarketDepthCache.new
          [⟨mkRat 29 4, 2 ^ 63, Side.Ask⟩,
            ⟨mkRat 29 4, 2 ^ 63 + 5, Side.Ask⟩]).get_quantity_at_level 7 Side.Ask =
        (2 ^ 63 + (2 ^ 63 + 5)) % U64_MOD ∧
        (2 ^ 63 + (2 ^ 63 + 5)) % U64_MOD ≠ 2 ^ 63 + (2 ^ 63 + 5)) := by
  refine ⟨fun es L S hfit => ?_, by decide, by decide⟩
  rw [get_quantity_process_all es wf_new_cache L S]
  have hnew : MarketDepthCache.new.get_quantity_at_level L S = 0 := by
    cases S <;> rfl
  rw [hnew, Nat.zero_add, Nat.mod_eq_of_lt hfit]

/-- Witness for C10: the in-range half applied to a concrete single-event
list, the fitting hypothesis discharged by evaluation. -/
theorem C10_u64_wraparound_witness :
    (MarketDepthCache.process_all MarketDepthCache.new
        [⟨mkRat 29 4, 11, Side.Ask⟩]).get_quantity_at_level 7 Side.Ask =
      sum_deltas [⟨mkRat 29 4, 11, Side.Ask⟩] 7 Side.Ask :=
  C10_u64_wraparound.1 [⟨mkRat 29 4, 11, Side.Ask⟩] 7 Side.Ask (by decide)
